import Mathlib

/-!
Verification development for the block-editor repository's core behaviors:
the inline markdown autoformat engine (`convertInlineMarkdown` in
src/components/Editor/blocks/ParagraphBlock.jsx), the nested-block event
handlers (src/components/Editor/blocks/NestedBlock.jsx), the sortable-block
drop indicator, and the block data model. Strings are embedded as `List Char`;
the four JavaScript regex replacement passes are embedded as deterministic
left-to-right scans (each of the regexes `\*\*([^*]+)\*\*`,
`(?<!\*)\*([^*]+)\*(?!\*)`, `~~([^~]+)~~` and the backtick code pattern
backtracks only within a run of non-delimiter characters, so a single
left-to-right scan with one-character advance on failure is exact).
The scans carry a fuel argument (instantiated with the string length by the
wrappers) so that they are structurally recursive and computable by `decide`.
-/

/-- The backtick character, the delimiter of the code pattern. -/
def backtick : Char := Char.ofNat 96

/-- Replacement fragment of the bold pass: left part of `<strong>$1</strong>`. -/
def strongOpen : List Char := "<strong>".data

/-- Replacement fragment of the bold pass: right part of `<strong>$1</strong>`. -/
def strongClose : List Char := "</strong>".data

/-- Replacement fragment of the italic pass: left part of `<em>$1</em>`. -/
def emOpen : List Char := "<em>".data

/-- Replacement fragment of the italic pass: right part of `<em>$1</em>`. -/
def emClose : List Char := "</em>".data

/-- Replacement fragment of the strikethrough pass: left part of `<s>$1</s>`. -/
def strikeOpen : List Char := "<s>".data

/-- Replacement fragment of the strikethrough pass: right part of `<s>$1</s>`. -/
def strikeClose : List Char := "</s>".data

/-- Replacement fragment of the code pass: the opening code tag with the
class attribute used by ParagraphBlock.jsx. -/
def codeOpen : List Char :=
  "<code class=\"bg-gray-100 px-1 rounded text-sm font-mono\">".data

/-- Replacement fragment of the code pass: the closing code tag. -/
def codeClose : List Char := "</code>".data

/-- Attempt of a regex tail `([^d]+)d` at the current position: returns the
nonempty run of non-delimiter characters together with the remainder after
the closing delimiter, or `none` when the tail cannot match here. -/
def splitSingle (d : Char) (rest : List Char) : Option (List Char × List Char) :=
  match rest.dropWhile (fun c => c != d) with
  | _ :: rest2 =>
      if rest.takeWhile (fun c => c != d) = [] then Option.none
      else some (rest.takeWhile (fun c => c != d), rest2)
  | [] => Option.none

/-- Attempt of a regex tail `([^d]+)dd` at the current position: returns the
nonempty run of non-delimiter characters together with the remainder after
the two closing delimiters, or `none` when the tail cannot match here. -/
def splitDouble (d : Char) (rest : List Char) : Option (List Char × List Char) :=
  match rest.dropWhile (fun c => c != d) with
  | _ :: c2 :: rest2 =>
      if rest.takeWhile (fun c => c != d) = [] ∨ c2 ≠ d then Option.none
      else some (rest.takeWhile (fun c => c != d), rest2)
  | _ => Option.none

/-- Global replacement scan for a pattern `dd([^d]+)dd` (the bold and
strikethrough regexes of convertInlineMarkdown), replacing each match with
`op ++ content ++ cl`; the Bool reports whether at least one match occurred
(the value of the corresponding `RegExp.test` in the source). On a failed
match attempt the scan advances one position, exactly as the JS engine does. -/
def doubleRepl (d : Char) (op cl : List Char) : Nat → List Char → List Char × Bool
  | _, [] => ([], false)
  | 0, c :: cs => (c :: cs, false)
  | _ + 1, [c] => ([c], false)
  | fuel + 1, c1 :: c2 :: rest =>
    if c1 = d ∧ c2 = d then
      match splitDouble d rest with
      | some (content, rest2) =>
          let r := doubleRepl d op cl fuel rest2
          (op ++ content ++ cl ++ r.1, true)
      | Option.none =>
          let r := doubleRepl d op cl fuel (c2 :: rest)
          (c1 :: r.1, r.2)
    else
      let r := doubleRepl d op cl fuel (c2 :: rest)
      (c1 :: r.1, r.2)

/-- Global replacement scan for a pattern `d([^d]+)d` (the code regex),
replacing each match with `op ++ content ++ cl`. -/
def singleRepl (d : Char) (op cl : List Char) : Nat → List Char → List Char × Bool
  | _, [] => ([], false)
  | 0, c :: cs => (c :: cs, false)
  | fuel + 1, c :: cs =>
    if c = d then
      match splitSingle d cs with
      | some (content, rest2) =>
          let r := singleRepl d op cl fuel rest2
          (op ++ content ++ cl ++ r.1, true)
      | Option.none =>
          let r := singleRepl d op cl fuel cs
          (c :: r.1, r.2)
    else
      let r := singleRepl d op cl fuel cs
      (c :: r.1, r.2)

/-- Global replacement scan for the italic regex
`(?<!\*)\*([^*]+)\*(?!\*)` of convertInlineMarkdown. `prev` is the character
before the current position in the input (the negative lookbehind inspects
the original string, which after a match is the closing delimiter). A match
additionally requires the character after the closing `*` to differ from `*`
(the negative lookahead); on any failure the scan advances one position. -/
def italicReplF : Option Char → Nat → List Char → List Char × Bool
  | _, _, [] => ([], false)
  | _, 0, c :: cs => (c :: cs, false)
  | prev, fuel + 1, c :: cs =>
    if c = '*' ∧ prev ≠ some '*' then
      match splitSingle '*' cs with
      | some (content, rest2) =>
          if rest2.head? = some '*' then
            let r := italicReplF (some c) fuel cs
            (c :: r.1, r.2)
          else
            let r := italicReplF (some '*') fuel rest2
            (emOpen ++ content ++ emClose ++ r.1, true)
      | Option.none =>
          let r := italicReplF (some c) fuel cs
          (c :: r.1, r.2)
    else
      let r := italicReplF (some c) fuel cs
      (c :: r.1, r.2)

/-- The bold pass `converted.replace(/\*\*([^*]+)\*\*/g, "<strong>$1</strong>")`
paired with the result of `boldPattern.test`. -/
def boldRepl (s : List Char) : List Char × Bool :=
  doubleRepl '*' strongOpen strongClose s.length s

/-- The italic pass `converted.replace(/(?<!\*)\*([^*]+)\*(?!\*)/g, "<em>$1</em>")`
paired with the result of `italicPattern.test`. -/
def italicRepl (prev : Option Char) (s : List Char) : List Char × Bool :=
  italicReplF prev s.length s

/-- The strikethrough pass `converted.replace(/~~([^~]+)~~/g, "<s>$1</s>")`
paired with the result of `strikePattern.test`. -/
def strikeRepl (s : List Char) : List Char × Bool :=
  doubleRepl '~' strikeOpen strikeClose s.length s

/-- The code pass: backtick-delimited spans become `<code class="...">$1</code>`,
paired with the result of `codePattern.test`. -/
def codeRepl (s : List Char) : List Char × Bool :=
  singleRepl backtick codeOpen codeClose s.length s

/-- `convertInlineMarkdown` of ParagraphBlock.jsx (lines 45-81): the four
passes applied in order (bold, italic, strikethrough, code), each applied only
when its pattern tests positive on the current string, with `changed` the
disjunction of the four tests. -/
def convertInlineMarkdown (html : List Char) : List Char × Bool :=
  let b := boldRepl html
  let c1 := if b.2 then b.1 else html
  let i := italicRepl Option.none c1
  let c2 := if i.2 then i.1 else c1
  let st := strikeRepl c2
  let c3 := if st.2 then st.1 else c2
  let co := codeRepl c3
  let c4 := if co.2 then co.1 else c3
  (c4, b.2 || i.2 || st.2 || co.2)

/-- The head of a nonempty `dropWhile` residue falsifies the predicate. -/
theorem dropWhile_head_not (p : Char → Bool) :
    ∀ (l : List Char) (c : Char) (t : List Char), l.dropWhile p = c :: t → p c = false := by
  intro l
  induction l with
  | nil => intro c t h; simp [List.dropWhile] at h
  | cons a as ih =>
    intro c t h
    rw [List.dropWhile_cons] at h
    by_cases ha : p a = true
    · rw [if_pos ha] at h; exact ih c t h
    · rw [if_neg ha] at h
      cases h
      simpa using ha

/-- Decomposition of a successful `splitSingle`: the scanned suffix is the
nonempty non-delimiter content, the closing delimiter, then the remainder. -/
theorem splitSingle_some (d : Char) (rest content rest2 : List Char)
    (h : splitSingle d rest = some (content, rest2)) :
    rest = content ++ d :: rest2 ∧ content ≠ [] ∧ ∀ c ∈ content, c ≠ d := by
  unfold splitSingle at h
  rcases hd : rest.dropWhile (fun c => c != d) with _ | ⟨c1, t⟩
  · rw [hd] at h; exact absurd h (by simp)
  · rw [hd] at h
    dsimp only at h
    by_cases he : rest.takeWhile (fun c => c != d) = []
    · rw [if_pos he] at h; exact absurd h (by simp)
    · rw [if_neg he] at h
      simp only [Option.some.injEq, Prod.mk.injEq] at h
      obtain ⟨hc, ht⟩ := h
      have hc1 : (c1 != d) = false := dropWhile_head_not _ rest c1 t hd
      have hc1d : c1 = d := by simpa using hc1
      refine ⟨?_, ?_, ?_⟩
      · have hsplit := List.takeWhile_append_dropWhile (fun c => c != d) rest
        rw [hd, hc, hc1d, ht] at hsplit
        exact hsplit.symm
      · rw [← hc]; exact he
      · intro c hcmem
        have := List.mem_takeWhile_imp (hc ▸ hcmem)
        simpa using this

/-- The remainder of a successful `splitSingle` is shorter by at least two. -/
theorem splitSingle_length (d : Char) (rest content rest2 : List Char)
    (h : splitSingle d rest = some (content, rest2)) :
    rest2.length + 2 ≤ rest.length := by
  obtain ⟨heq, hne, _⟩ := splitSingle_some d rest content rest2 h
  have hpos : 1 ≤ content.length := List.length_pos.mpr hne
  rw [heq]
  simp [List.length_append]
  omega

/-- Decomposition of a successful `splitDouble`: nonempty non-delimiter
content, the two closing delimiters, then the remainder. -/
theorem splitDouble_some (d : Char) (rest content rest2 : List Char)
    (h : splitDouble d rest = some (content, rest2)) :
    rest = content ++ d :: d :: rest2 ∧ content ≠ [] ∧ ∀ c ∈ content, c ≠ d := by
  unfold splitDouble at h
  rcases hd : rest.dropWhile (fun c => c != d) with _ | ⟨c1, t⟩
  · rw [hd] at h; exact absurd h (by simp)
  · rcases t with _ | ⟨c2, t2⟩
    · rw [hd] at h; exact absurd h (by simp)
    · rw [hd] at h
      dsimp only at h
      by_cases he : rest.takeWhile (fun c => c != d) = [] ∨ c2 ≠ d
      · rw [if_pos he] at h; exact absurd h (by simp)
      · rw [if_neg he] at h
        push_neg at he
        obtain ⟨hne, hc2⟩ := he
        simp only [Option.some.injEq, Prod.mk.injEq] at h
        obtain ⟨hc, ht⟩ := h
        have hc1 : (c1 != d) = false := dropWhile_head_not _ rest c1 (c2 :: t2) hd
        have hc1d : c1 = d := by simpa using hc1
        refine ⟨?_, ?_, ?_⟩
        · have hsplit := List.takeWhile_append_dropWhile (fun c => c != d) rest
          rw [hd, hc, hc1d, hc2, ht] at hsplit
          exact hsplit.symm
        · rw [← hc]; exact hne
        · intro c hcmem
          have := List.mem_takeWhile_imp (hc ▸ hcmem)
          simpa using this

/-- The remainder of a successful `splitDouble` is shorter by at least three. -/
theorem splitDouble_length (d : Char) (rest content rest2 : List Char)
    (h : splitDouble d rest = some (content, rest2)) :
    rest2.length + 3 ≤ rest.length := by
  obtain ⟨heq, hne, _⟩ := splitDouble_some d rest content rest2 h
  have hpos : 1 ≤ content.length := List.length_pos.mpr hne
  rw [heq]
  simp [List.length_append]
  omega

/-- A string without the delimiter is returned unchanged by the double-delimiter
scan, with a negative test. -/
theorem doubleRepl_plain (d : Char) (op cl : List Char) :
    ∀ (fuel : Nat) (s : List Char), s.length ≤ fuel → (∀ c ∈ s, c ≠ d) →
      doubleRepl d op cl fuel s = (s, false) := by
  intro fuel
  induction fuel with
  | zero =>
    intro s hs _
    have hnil : s = [] := List.length_eq_zero.mp (Nat.le_zero.mp hs)
    subst hnil
    rfl
  | succ n ih =>
    intro s hs hplain
    rcases s with _ | ⟨c1, s1⟩
    · rfl
    rcases s1 with _ | ⟨c2, rest⟩
    · rfl
    have h1 : c1 ≠ d := hplain c1 (by simp)
    have hcond : ¬(c1 = d ∧ c2 = d) := fun hh => h1 hh.1
    simp only [doubleRepl]
    rw [if_neg hcond]
    have hlen : (c2 :: rest).length ≤ n := by
      simp only [List.length_cons] at hs ⊢; omega
    have hrec := ih (c2 :: rest) hlen (fun c hc => hplain c (List.mem_cons_of_mem c1 hc))
    simp [hrec]

/-- When the double-delimiter scan reports no match, it returns its input. -/
theorem doubleRepl_false (d : Char) (op cl : List Char) :
    ∀ (fuel : Nat) (s : List Char), s.length ≤ fuel →
      (doubleRepl d op cl fuel s).2 = false → (doubleRepl d op cl fuel s).1 = s := by
  intro fuel
  induction fuel with
  | zero =>
    intro s hs _
    have hnil : s = [] := List.length_eq_zero.mp (Nat.le_zero.mp hs)
    subst hnil
    rfl
  | succ n ih =>
    intro s hs hfl
    rcases s with _ | ⟨c1, s1⟩
    · rfl
    rcases s1 with _ | ⟨c2, rest⟩
    · rfl
    have hlen : (c2 :: rest).length ≤ n := by
      simp only [List.length_cons] at hs ⊢; omega
    simp only [doubleRepl] at hfl ⊢
    by_cases h12 : c1 = d ∧ c2 = d
    · rw [if_pos h12] at hfl ⊢
      rcases hsd : splitDouble d rest with _ | ⟨content, rest2⟩
      · rw [hsd] at hfl
        dsimp only at hfl ⊢
        have := ih (c2 :: rest) hlen hfl
        simp [this]
      · rw [hsd] at hfl
        dsimp only at hfl
        exact absurd hfl (by simp)
    · rw [if_neg h12] at hfl ⊢
      dsimp only at hfl ⊢
      have := ih (c2 :: rest) hlen hfl
      simp [this]

/-- The double-delimiter scan never shortens its input, and strictly lengthens
it whenever it reports a match (each replacement inserts markup longer than
the four delimiter characters it removes). -/
theorem doubleRepl_length (d : Char) (op cl : List Char)
    (hop : 5 ≤ op.length + cl.length) :
    ∀ (fuel : Nat) (s : List Char), s.length ≤ fuel →
      s.length ≤ (doubleRepl d op cl fuel s).1.length ∧
        ((doubleRepl d op cl fuel s).2 = true →
          s.length < (doubleRepl d op cl fuel s).1.length) := by
  intro fuel
  induction fuel with
  | zero =>
    intro s hs
    have hnil : s = [] := List.length_eq_zero.mp (Nat.le_zero.mp hs)
    subst hnil
    simp [doubleRepl]
  | succ n ih =>
    intro s hs
    rcases s with _ | ⟨c1, s1⟩
    · simp [doubleRepl]
    rcases s1 with _ | ⟨c2, rest⟩
    · simp [doubleRepl]
    have hlen : (c2 :: rest).length ≤ n := by
      simp only [List.length_cons] at hs ⊢; omega
    simp only [doubleRepl]
    by_cases h12 : c1 = d ∧ c2 = d
    · rw [if_pos h12]
      rcases hsd : splitDouble d rest with _ | ⟨content, rest2⟩
      · dsimp only
        have hih := ih (c2 :: rest) hlen
        simp only [List.length_cons] at hih ⊢
        constructor
        · omega
        · intro hf; exact Nat.succ_lt_succ (hih.2 hf)
      · obtain ⟨heq, hne, _⟩ := splitDouble_some d rest content rest2 hsd
        have hl3 := splitDouble_length d rest content rest2 hsd
        have hlen2 : rest2.length ≤ n := by
          simp only [List.length_cons] at hs; omega
        have hih := ih rest2 hlen2
        have hrl : rest.length = content.length + (rest2.length + 2) := by
          rw [heq]; simp [List.length_append]
        dsimp only
        simp only [List.length_cons, List.length_append]
        constructor
        · omega
        · intro _; omega
    · rw [if_neg h12]
      dsimp only
      have hih := ih (c2 :: rest) hlen
      simp only [List.length_cons] at hih ⊢
      constructor
      · omega
      · intro hf; exact Nat.succ_lt_succ (hih.2 hf)

/-- A string without the delimiter is returned unchanged by the single-delimiter
scan, with a negative test. -/
theorem singleRepl_plain (d : Char) (op cl : List Char) :
    ∀ (fuel : Nat) (s : List Char), s.length ≤ fuel → (∀ c ∈ s, c ≠ d) →
      singleRepl d op cl fuel s = (s, false) := by
  intro fuel
  induction fuel with
  | zero =>
    intro s hs _
    have hnil : s = [] := List.length_eq_zero.mp (Nat.le_zero.mp hs)
    subst hnil
    rfl
  | succ n ih =>
    intro s hs hplain
    rcases s with _ | ⟨c, cs⟩
    · rfl
    have hc : c ≠ d := hplain c (by simp)
    simp only [singleRepl]
    rw [if_neg hc]
    have hlen : cs.length ≤ n := by
      simp only [List.length_cons] at hs; omega
    have hrec := ih cs hlen (fun x hx => hplain x (List.mem_cons_of_mem c hx))
    simp [hrec]

/-- When the single-delimiter scan reports no match, it returns its input. -/
theorem singleRepl_false (d : Char) (op cl : List Char) :
    ∀ (fuel : Nat) (s : List Char), s.length ≤ fuel →
      (singleRepl d op cl fuel s).2 = false → (singleRepl d op cl fuel s).1 = s := by
  intro fuel
  induction fuel with
  | zero =>
    intro s hs _
    have hnil : s = [] := List.length_eq_zero.mp (Nat.le_zero.mp hs)
    subst hnil
    rfl
  | succ n ih =>
    intro s hs hfl
    rcases s with _ | ⟨c, cs⟩
    · rfl
    have hlen : cs.length ≤ n := by
      simp only [List.length_cons] at hs; omega
    simp only [singleRepl] at hfl ⊢
    by_cases hc : c = d
    · rw [if_pos hc] at hfl ⊢
      rcases hss : splitSingle d cs with _ | ⟨content, rest2⟩
      · rw [hss] at hfl
        dsimp only at hfl ⊢
        have := ih cs hlen hfl
        simp [this]
      · rw [hss] at hfl
        dsimp only at hfl
        exact absurd hfl (by simp)
    · rw [if_neg hc] at hfl ⊢
      dsimp only at hfl ⊢
      have := ih cs hlen hfl
      simp [this]

/-- The single-delimiter scan never shortens its input, and strictly lengthens
it whenever it reports a match. -/
theorem singleRepl_length (d : Char) (op cl : List Char)
    (hop : 3 ≤ op.length + cl.length) :
    ∀ (fuel : Nat) (s : List Char), s.length ≤ fuel →
      s.length ≤ (singleRepl d op cl fuel s).1.length ∧
        ((singleRepl d op cl fuel s).2 = true →
          s.length < (singleRepl d op cl fuel s).1.length) := by
  intro fuel
  induction fuel with
  | zero =>
    intro s hs
    have hnil : s = [] := List.length_eq_zero.mp (Nat.le_zero.mp hs)
    subst hnil
    simp [singleRepl]
  | succ n ih =>
    intro s hs
    rcases s with _ | ⟨c, cs⟩
    · simp [singleRepl]
    have hlen : cs.length ≤ n := by
      simp only [List.length_cons] at hs; omega
    simp only [singleRepl]
    by_cases hc : c = d
    · rw [if_pos hc]
      rcases hss : splitSingle d cs with _ | ⟨content, rest2⟩
      · dsimp only
        have hih := ih cs hlen
        simp only [List.length_cons] at hih ⊢
        exact ⟨by omega, fun hf => Nat.succ_lt_succ (hih.2 hf)⟩
      · obtain ⟨heq, hne, _⟩ := splitSingle_some d cs content rest2 hss
        have hl2 := splitSingle_length d cs content rest2 hss
        have hlen2 : rest2.length ≤ n := by
          simp only [List.length_cons] at hs; omega
        have hih := ih rest2 hlen2
        have hrl : cs.length = content.length + (rest2.length + 1) := by
          rw [heq]; simp [List.length_append]
        dsimp only
        simp only [List.length_cons, List.length_append]
        exact ⟨by omega, fun _ => by omega⟩
    · rw [if_neg hc]
      dsimp only
      have hih := ih cs hlen
      simp only [List.length_cons] at hih ⊢
      exact ⟨by omega, fun hf => Nat.succ_lt_succ (hih.2 hf)⟩

/-- A string without `*` is returned unchanged by the italic scan, for every
lookbehind state, with a negative test. -/
theorem italicReplF_plain :
    ∀ (fuel : Nat) (prev : Option Char) (s : List Char), s.length ≤ fuel →
      (∀ c ∈ s, c ≠ '*') → italicReplF prev fuel s = (s, false) := by
  intro fuel
  induction fuel with
  | zero =>
    intro prev s hs _
    have hnil : s = [] := List.length_eq_zero.mp (Nat.le_zero.mp hs)
    subst hnil
    rfl
  | succ n ih =>
    intro prev s hs hplain
    rcases s with _ | ⟨c, cs⟩
    · rfl
    have hc : c ≠ '*' := hplain c (by simp)
    have hcond : ¬(c = '*' ∧ prev ≠ some '*') := fun hh => hc hh.1
    simp only [italicReplF]
    rw [if_neg hcond]
    have hlen : cs.length ≤ n := by
      simp only [List.length_cons] at hs; omega
    have hrec := ih (some c) cs hlen (fun x hx => hplain x (List.mem_cons_of_mem c hx))
    simp [hrec]

/-- When the italic scan reports no match, it returns its input. -/
theorem italicReplF_false :
    ∀ (fuel : Nat) (prev : Option Char) (s : List Char), s.length ≤ fuel →
      (italicReplF prev fuel s).2 = false → (italicReplF prev fuel s).1 = s := by
  intro fuel
  induction fuel with
  | zero =>
    intro prev s hs _
    have hnil : s = [] := List.length_eq_zero.mp (Nat.le_zero.mp hs)
    subst hnil
    rfl
  | succ n ih =>
    intro prev s hs hfl
    rcases s with _ | ⟨c, cs⟩
    · rfl
    have hlen : cs.length ≤ n := by
      simp only [List.length_cons] at hs; omega
    simp only [italicReplF] at hfl ⊢
    by_cases hcond : c = '*' ∧ prev ≠ some '*'
    · rw [if_pos hcond] at hfl ⊢
      rcases hss : splitSingle '*' cs with _ | ⟨content, rest2⟩
      · rw [hss] at hfl
        dsimp only at hfl ⊢
        have := ih (some c) cs hlen hfl
        simp [this]
      · rw [hss] at hfl
        dsimp only at hfl ⊢
        by_cases hhead : rest2.head? = some '*'
        · rw [if_pos hhead] at hfl ⊢
          dsimp only at hfl ⊢
          have := ih (some c) cs hlen hfl
          simp [this]
        · rw [if_neg hhead] at hfl
          dsimp only at hfl
          exact absurd hfl (by simp)
    · rw [if_neg hcond] at hfl ⊢
      dsimp only at hfl ⊢
      have := ih (some c) cs hlen hfl
      simp [this]

/-- The italic scan never shortens its input, and strictly lengthens it
whenever it reports a match. -/
theorem italicReplF_length :
    ∀ (fuel : Nat) (prev : Option Char) (s : List Char), s.length ≤ fuel →
      s.length ≤ (italicReplF prev fuel s).1.length ∧
        ((italicReplF prev fuel s).2 = true →
          s.length < (italicReplF prev fuel s).1.length) := by
  intro fuel
  induction fuel with
  | zero =>
    intro prev s hs
    have hnil : s = [] := List.length_eq_zero.mp (Nat.le_zero.mp hs)
    subst hnil
    simp [italicReplF]
  | succ n ih =>
    intro prev s hs
    rcases s with _ | ⟨c, cs⟩
    · simp [italicReplF]
    have hlen : cs.length ≤ n := by
      simp only [List.length_cons] at hs; omega
    simp only [italicReplF]
    by_cases hcond : c = '*' ∧ prev ≠ some '*'
    · rw [if_pos hcond]
      rcases hss : splitSingle '*' cs with _ | ⟨content, rest2⟩
      · dsimp only
        have hih := ih (some c) cs hlen
        simp only [List.length_cons] at hih ⊢
        exact ⟨by omega, fun hf => Nat.succ_lt_succ (hih.2 hf)⟩
      · dsimp only
        by_cases hhead : rest2.head? = some '*'
        · rw [if_pos hhead]
          dsimp only
          have hih := ih (some c) cs hlen
          simp only [List.length_cons] at hih ⊢
          exact ⟨by omega, fun hf => Nat.succ_lt_succ (hih.2 hf)⟩
        · rw [if_neg hhead]
          obtain ⟨heq, hne, _⟩ := splitSingle_some '*' cs content rest2 hss
          have hl2 := splitSingle_length '*' cs content rest2 hss
          have hlen2 : rest2.length ≤ n := by
            simp only [List.length_cons] at hs; omega
          have hih := ih (some '*') rest2 hlen2
          have hrl : cs.length = content.length + (rest2.length + 1) := by
            rw [heq]; simp [List.length_append]
          have hem : emOpen.length + emClose.length = 9 := by decide
          dsimp only
          simp only [List.length_cons, List.length_append]
          exact ⟨by omega, fun _ => by omega⟩
    · rw [if_neg hcond]
      dsimp only
      have hih := ih (some c) cs hlen
      simp only [List.length_cons] at hih ⊢
      exact ⟨by omega, fun hf => Nat.succ_lt_succ (hih.2 hf)⟩

/-- Bold pass: negative test means the string is unchanged. -/
theorem boldRepl_false_eq (s : List Char) (h : (boldRepl s).2 = false) :
    (boldRepl s).1 = s :=
  doubleRepl_false '*' strongOpen strongClose s.length s (Nat.le_refl _) h

/-- Italic pass: negative test means the string is unchanged. -/
theorem italicRepl_false_eq (prev : Option Char) (s : List Char)
    (h : (italicRepl prev s).2 = false) : (italicRepl prev s).1 = s :=
  italicReplF_false s.length prev s (Nat.le_refl _) h

/-- Strikethrough pass: negative test means the string is unchanged. -/
theorem strikeRepl_false_eq (s : List Char) (h : (strikeRepl s).2 = false) :
    (strikeRepl s).1 = s :=
  doubleRepl_false '~' strikeOpen strikeClose s.length s (Nat.le_refl _) h

/-- Code pass: negative test means the string is unchanged. -/
theorem codeRepl_false_eq (s : List Char) (h : (codeRepl s).2 = false) :
    (codeRepl s).1 = s :=
  singleRepl_false backtick codeOpen codeClose s.length s (Nat.le_refl _) h

/-- Bold pass: the output is never shorter than the input. -/
theorem boldRepl_le (s : List Char) : s.length ≤ (boldRepl s).1.length :=
  (doubleRepl_length '*' strongOpen strongClose (by decide) s.length s (Nat.le_refl _)).1

/-- Bold pass: a positive test strictly lengthens the string. -/
theorem boldRepl_lt (s : List Char) (h : (boldRepl s).2 = true) :
    s.length < (boldRepl s).1.length :=
  (doubleRepl_length '*' strongOpen strongClose (by decide) s.length s (Nat.le_refl _)).2 h

/-- Italic pass: the output is never shorter than the input. -/
theorem italicRepl_le (prev : Option Char) (s : List Char) :
    s.length ≤ (italicRepl prev s).1.length :=
  (italicReplF_length s.length prev s (Nat.le_refl _)).1

/-- Italic pass: a positive test strictly lengthens the string. -/
theorem italicRepl_lt (prev : Option Char) (s : List Char)
    (h : (italicRepl prev s).2 = true) : s.length < (italicRepl prev s).1.length :=
  (italicReplF_length s.length prev s (Nat.le_refl _)).2 h

/-- Strikethrough pass: the output is never shorter than the input. -/
theorem strikeRepl_le (s : List Char) : s.length ≤ (strikeRepl s).1.length :=
  (doubleRepl_length '~' strikeOpen strikeClose (by decide) s.length s (Nat.le_refl _)).1

/-- Strikethrough pass: a positive test strictly lengthens the string. -/
theorem strikeRepl_lt (s : List Char) (h : (strikeRepl s).2 = true) :
    s.length < (strikeRepl s).1.length :=
  (doubleRepl_length '~' strikeOpen strikeClose (by decide) s.length s (Nat.le_refl _)).2 h

/-- Code pass: the output is never shorter than the input. -/
theorem codeRepl_le (s : List Char) : s.length ≤ (codeRepl s).1.length :=
  (singleRepl_length backtick codeOpen codeClose (by decide) s.length s (Nat.le_refl _)).1

/-- Code pass: a positive test strictly lengthens the string. -/
theorem codeRepl_lt (s : List Char) (h : (codeRepl s).2 = true) :
    s.length < (codeRepl s).1.length :=
  (singleRepl_length backtick codeOpen codeClose (by decide) s.length s (Nat.le_refl _)).2 h

/-- The guarded update `if test then replaced else current` collapses to the
replaced string, because a negative test leaves the string unchanged. -/
theorem if_flag (t : List Char) (st : List Char × Bool) (h : st.2 = false → st.1 = t) :
    (if st.2 = true then st.1 else t) = st.1 := by
  rcases Bool.eq_false_or_eq_true st.2 with h2 | h2
  · rw [h2, if_pos rfl]
  · rw [h2, if_neg (by simp)]
    exact (h h2).symm

/-- `convertInlineMarkdown` is the composition of the four passes, and its
`changed` flag is the disjunction of the four tests. -/
theorem convertInlineMarkdown_eq (s : List Char) :
    convertInlineMarkdown s =
      ((codeRepl (strikeRepl (italicRepl Option.none (boldRepl s).1).1).1).1,
        (boldRepl s).2 || (italicRepl Option.none (boldRepl s).1).2 ||
          (strikeRepl (italicRepl Option.none (boldRepl s).1).1).2 ||
          (codeRepl (strikeRepl (italicRepl Option.none (boldRepl s).1).1).1).2) := by
  simp only [convertInlineMarkdown]
  rw [if_flag s (boldRepl s) (boldRepl_false_eq s)]
  rw [if_flag _ _ (italicRepl_false_eq Option.none (boldRepl s).1)]
  rw [if_flag _ _ (strikeRepl_false_eq (italicRepl Option.none (boldRepl s).1).1)]
  rw [if_flag _ _ (codeRepl_false_eq (strikeRepl (italicRepl Option.none (boldRepl s).1).1).1)]

/-- A negative `changed` flag means the input is returned byte-for-byte. -/
theorem convertInlineMarkdown_false_eq (s : List Char)
    (h : (convertInlineMarkdown s).2 = false) : convertInlineMarkdown s = (s, false) := by
  rw [convertInlineMarkdown_eq] at h ⊢
  dsimp only at h
  simp only [Bool.or_eq_false_iff] at h
  obtain ⟨⟨⟨hb, hi⟩, hst⟩, hco⟩ := h
  have e1 : (boldRepl s).1 = s := boldRepl_false_eq s hb
  rw [e1] at hi hst hco ⊢
  have e2 : (italicRepl Option.none s).1 = s := italicRepl_false_eq Option.none s hi
  rw [e2] at hst hco ⊢
  have e3 : (strikeRepl s).1 = s := strikeRepl_false_eq s hst
  rw [e3] at hco ⊢
  have e4 : (codeRepl s).1 = s := codeRepl_false_eq s hco
  rw [e4, hb, hi, hst, hco]
  simp

/-- A positive `changed` flag means the output differs from the input (it is
strictly longer, because every replacement inserts markup longer than the
delimiters it removes). -/
theorem convertInlineMarkdown_true_ne (s : List Char)
    (h : (convertInlineMarkdown s).2 = true) : (convertInlineMarkdown s).1 ≠ s := by
  rw [convertInlineMarkdown_eq] at h ⊢
  dsimp only at h ⊢
  have l1 := boldRepl_le s
  have l2 := italicRepl_le Option.none (boldRepl s).1
  have l3 := strikeRepl_le (italicRepl Option.none (boldRepl s).1).1
  have l4 := codeRepl_le (strikeRepl (italicRepl Option.none (boldRepl s).1).1).1
  intro he
  have hlen := congrArg List.length he
  simp only [Bool.or_eq_true] at h
  rcases h with ((hb | hi) | hst) | hco
  · have := boldRepl_lt s hb; omega
  · have := italicRepl_lt Option.none (boldRepl s).1 hi; omega
  · have := strikeRepl_lt (italicRepl Option.none (boldRepl s).1).1 hst; omega
  · have := codeRepl_lt (strikeRepl (italicRepl Option.none (boldRepl s).1).1).1 hco; omega

/-- `takeWhile` runs through a delimiter-free prefix up to the delimiter. -/
theorem takeWhile_plain (d : Char) (x l : List Char) (hx : ∀ c ∈ x, c ≠ d) :
    (x ++ d :: l).takeWhile (fun c => c != d) = x := by
  induction x with
  | nil => simp [List.takeWhile_cons]
  | cons a as ih =>
    have ha : a ≠ d := hx a (by simp)
    simp only [List.cons_append, List.takeWhile_cons]
    rw [if_pos (by simpa using ha)]
    rw [ih (fun c hc => hx c (List.mem_cons_of_mem a hc))]

/-- `dropWhile` skips a delimiter-free prefix and stops at the delimiter. -/
theorem dropWhile_plain (d : Char) (x l : List Char) (hx : ∀ c ∈ x, c ≠ d) :
    (x ++ d :: l).dropWhile (fun c => c != d) = d :: l := by
  induction x with
  | nil => simp [List.dropWhile_cons]
  | cons a as ih =>
    have ha : a ≠ d := hx a (by simp)
    simp only [List.cons_append, List.dropWhile_cons]
    rw [if_pos (by simpa using ha)]
    exact ih (fun c hc => hx c (List.mem_cons_of_mem a hc))

/-- `dropWhile` consumes a fully delimiter-free list. -/
theorem dropWhile_plain_nil (d : Char) (x : List Char) (hx : ∀ c ∈ x, c ≠ d) :
    x.dropWhile (fun c => c != d) = [] := by
  induction x with
  | nil => rfl
  | cons a as ih =>
    have ha : a ≠ d := hx a (by simp)
    simp only [List.dropWhile_cons]
    rw [if_pos (by simpa using ha)]
    exact ih (fun c hc => hx c (List.mem_cons_of_mem a hc))

/-- `splitDouble` succeeds exactly on content followed by the doubled
delimiter. -/
theorem splitDouble_match (d : Char) (x l : List Char) (hne : x ≠ [])
    (hx : ∀ c ∈ x, c ≠ d) : splitDouble d (x ++ d :: d :: l) = some (x, l) := by
  unfold splitDouble
  rw [dropWhile_plain d x (d :: l) hx]
  dsimp only
  rw [takeWhile_plain d x (d :: l) hx]
  rw [if_neg (by simp [hne])]

/-- `splitDouble` fails on a delimiter-free suffix. -/
theorem splitDouble_no_delim (d : Char) (x : List Char) (hx : ∀ c ∈ x, c ≠ d) :
    splitDouble d x = Option.none := by
  unfold splitDouble
  rw [dropWhile_plain_nil d x hx]

/-- A single leading delimiter followed by delimiter-free text never matches
the double-delimiter pattern. -/
theorem doubleRepl_plain_one (d : Char) (op cl : List Char) :
    ∀ (fuel : Nat) (x : List Char), x ≠ [] → (∀ c ∈ x, c ≠ d) →
      (d :: x).length ≤ fuel → doubleRepl d op cl fuel (d :: x) = (d :: x, false) := by
  intro fuel x hne hx hlen
  rcases x with _ | ⟨y, ys⟩
  · exact absurd rfl hne
  rcases fuel with _ | n
  · simp at hlen
  simp only [doubleRepl]
  have hy : y ≠ d := hx y (by simp)
  rw [if_neg (fun hh => hy hh.2)]
  have hrec : doubleRepl d op cl n (y :: ys) = (y :: ys, false) :=
    doubleRepl_plain d op cl n (y :: ys)
      (by simp only [List.length_cons] at hlen ⊢; omega) hx
  simp [hrec]

/-- An unterminated doubled opening delimiter is left verbatim by the
double-delimiter scan. -/
theorem doubleRepl_open_unmatched (d : Char) (op cl : List Char) :
    ∀ (fuel : Nat) (x : List Char), x ≠ [] → (∀ c ∈ x, c ≠ d) →
      (d :: d :: x).length ≤ fuel →
      doubleRepl d op cl fuel (d :: d :: x) = (d :: d :: x, false) := by
  intro fuel x hne hx hlen
  rcases fuel with _ | n
  · simp at hlen
  simp only [doubleRepl]
  rw [if_pos (by simp), splitDouble_no_delim d x hx]
  dsimp only
  have hrec := doubleRepl_plain_one d op cl n x hne hx
    (by simp only [List.length_cons] at hlen ⊢; omega)
  simp [hrec]

/-- A doubled delimiter pair around delimiter-free content is replaced by the
markup pair in a single match. -/
theorem doubleRepl_full_match (d : Char) (op cl : List Char) :
    ∀ (fuel : Nat) (x : List Char), x ≠ [] → (∀ c ∈ x, c ≠ d) →
      (d :: d :: (x ++ [d, d])).length ≤ fuel →
      doubleRepl d op cl fuel (d :: d :: (x ++ [d, d])) = (op ++ x ++ cl, true) := by
  intro fuel x hne hx hlen
  rcases fuel with _ | n
  · simp at hlen
  simp only [doubleRepl]
  rw [if_pos (by simp)]
  have hsd : splitDouble d (x ++ [d, d]) = some (x, []) := splitDouble_match d x [] hne hx
  rw [hsd]
  dsimp only
  simp [doubleRepl, List.append_assoc]

/-- With the lookbehind state at `*`, a leading `*` cannot open an italic
match; delimiter-free text after it is returned verbatim. -/
theorem italicReplF_star_plain :
    ∀ (fuel : Nat) (x : List Char), (∀ c ∈ x, c ≠ '*') → ('*' :: x).length ≤ fuel →
      italicReplF (some '*') fuel ('*' :: x) = ('*' :: x, false) := by
  intro fuel x hx hlen
  rcases fuel with _ | n
  · simp at hlen
  simp only [italicReplF]
  rw [if_neg (fun hh => hh.2 rfl)]
  have hrec := italicReplF_plain n (some '*') x
    (by simp only [List.length_cons] at hlen; omega) hx
  simp [hrec]

/-- A doubled `*` never opens an italic match (the content class excludes `*`
at the first position, and the lookbehind excludes the second delimiter), so
`**` followed by star-free text is returned verbatim by the italic scan. -/
theorem italicReplF_double_open :
    ∀ (fuel : Nat) (x : List Char), (∀ c ∈ x, c ≠ '*') →
      ('*' :: '*' :: x).length ≤ fuel →
      italicReplF Option.none fuel ('*' :: '*' :: x) = ('*' :: '*' :: x, false) := by
  intro fuel x hx hlen
  rcases fuel with _ | n
  · simp at hlen
  simp only [italicReplF]
  rw [if_pos (by simp)]
  have hss : splitSingle '*' ('*' :: x) = Option.none := by
    unfold splitSingle
    simp [List.dropWhile_cons, List.takeWhile_cons]
  rw [hss]
  dsimp only
  have hrec := italicReplF_star_plain n x hx
    (by simp only [List.length_cons] at hlen ⊢; omega)
  simp [hrec]

/-- Block types of the data model (constants/BLOCK_TYPES referenced by
NestedBlock.jsx and the spec's type enumeration). -/
inductive BlockType
  | paragraph
  | heading1
  | heading2
  | heading3
  | task
  | quote
  | divider
  | columns
  | tabs
deriving DecidableEq

/-- A property value of a block's `properties` object: a boolean (such as
`checked`) or a string (such as `color`). -/
inductive PropVal
  | boolVal (b : Bool)
  | strVal (s : List Char)
deriving DecidableEq

/-- A block record: id, type, content markup, and the `properties` object
embedded as an association list in JavaScript key order. -/
structure Block where
  id : Nat
  type : BlockType
  content : List Char
  properties : List (String × PropVal)
deriving DecidableEq

/-- Effect of a key event on the editable surface (DOM), as opposed to the
canonical block tree. -/
inductive SurfaceEffect
  | insertLineBreak
  | noEffect
deriving DecidableEq

/-- `handleKeyDown` of NestedBlock.jsx (lines 59-68): Enter without Shift is
prevented and replaced by `document.execCommand("insertLineBreak")`; no store
mutation is performed in any branch, so the block list is returned unchanged
together with the surface effect. -/
def nestedHandleKeyDown (doc : List Block) (key : List Char) (shiftKey : Bool) :
    List Block × SurfaceEffect :=
  if key = "Enter".data ∧ shiftKey = false then (doc, SurfaceEffect.insertLineBreak)
  else (doc, SurfaceEffect.noEffect)

/-- Task/Quote degrade to Paragraph when a block is split. -/
def degradeType : BlockType → BlockType
  | BlockType.task => BlockType.paragraph
  | BlockType.quote => BlockType.paragraph
  | t => t

/-- Result of a Split intent: the new block list, the id of the block that
becomes active, and the logical cursor offset. -/
structure SplitResult where
  blocks : List Block
  activeId : Nat
  cursorOffset : Nat
deriving DecidableEq

/-- Modelled from the spec: the Split intent of the Structural Editing State
Machine for top-level blocks (its handler is not among the provided source
files; §4.2 of the spec defines it). The content of block `i` is partitioned
at offset `k`; the current block keeps the left part; a new block with a
fresh id, the same type with Task/Quote degraded to Paragraph, and the right
part is inserted immediately after; the new block becomes active with cursor
offset 0. -/
def splitIntent (bs : List Block) (i k newId : Nat) : SplitResult :=
  match bs[i]? with
  | some b =>
      { blocks := bs.take i ++
          { id := b.id, type := b.type, content := b.content.take k,
            properties := b.properties } ::
          { id := newId, type := degradeType b.type, content := b.content.drop k,
            properties := [] } :: bs.drop (i + 1),
        activeId := newId, cursorOffset := 0 }
  | Option.none => { blocks := bs, activeId := newId, cursorOffset := 0 }

/-- `handleInput` of ParagraphBlock.jsx (lines 84-113): on every `onInput`
event, the surface buffer is run through convertInlineMarkdown and
`onContentChange(id, newContent)` is invoked unconditionally; the emitted
store write is returned. -/
def handleInput (id : Nat) (buffer : List Char) : Option (Nat × List Char) :=
  let r := convertInlineMarkdown buffer
  if r.2 then some (id, r.1) else some (id, buffer)

/-- `handleBlur` of NestedBlock.jsx (lines 43-51): on blur, the surface buffer
is written to the store via `updateNestedBlock` only when it differs from the
content recorded at mount; otherwise nothing is emitted. -/
def handleBlur (blockId : Nat) (initialContent current : List Char) :
    Option (Nat × List Char) :=
  if current ≠ initialContent then some (blockId, current) else Option.none

/-- JavaScript object-spread update `\x7b...obj, key: v\x7d`: the key keeps its
original position if present, and is appended otherwise; all other entries are
untouched. -/
def setKey : List (String × PropVal) → String → PropVal → List (String × PropVal)
  | [], k, v => [(k, v)]
  | (k1, v1) :: rest, k, v =>
      if k1 = k then (k, v) :: rest else (k1, v1) :: setKey rest k v

/-- `handleCheckboxChange` of NestedBlock.jsx (lines 71-82): the block's
properties are replaced by the spread of the old properties with `checked`
set to the checkbox value, via `updateNestedBlock` (the store write, modelled
from the spec's `updateProperties` shallow-merge contract, replaces exactly
the supplied fields). -/
def handleCheckboxChange (b : Block) (checkedVal : Bool) : Block :=
  { b with properties := setKey b.properties "checked" (PropVal.boolVal checkedVal) }

/-- `showDropIndicator` of SortableBlock: `isOver && !isDragging &&
active?.id !== block.id`; with no active drag the optional chaining yields
`undefined`, which differs from any id. -/
def showDropIndicator (isOver isDragging : Bool) (activeId : Option Nat)
    (blockId : Nat) : Bool :=
  isOver && !isDragging &&
    (match activeId with
     | some a => a != blockId
     | Option.none => true)

/-- Modelled from the spec: the drag-release resolution of the Reorder Engine
(§4.3; the `handleDragEnd` handler is not among the provided source files).
A self-drop is a no-op; otherwise the source block is removed and re-inserted
above or below the hovered block according to the pointer half. -/
def resolveDrag (order : List Nat) (source hovered : Nat) (topHalf : Bool) :
    List Nat :=
  if source = hovered then order
  else
    (order.filter (fun x => x != source)).foldr
      (fun x acc =>
        if x = hovered then
          (if topHalf then source :: x :: acc else x :: source :: acc)
        else x :: acc) []

/-- The `lastIndex` fields of the four global regexes, were they shared
between calls. In the source each call of convertInlineMarkdown evaluates its
four regex literals afresh (lastIndex 0) and discards them on return, so a
call neither reads nor writes any state that survives it. -/
structure RegexEnv where
  boldLastIndex : Nat
  italicLastIndex : Nat
  strikeLastIndex : Nat
  codeLastIndex : Nat
deriving DecidableEq

/-- One invocation of convertInlineMarkdown threaded through the surrounding
mutable environment: the regex literals are created locally per call, so the
result is computed from the argument alone and the environment is returned
untouched. -/
def convertInlineMarkdownCall (env : RegexEnv) (html : List Char) :
    (List Char × Bool) × RegexEnv :=
  (convertInlineMarkdown html, env)

/-- `lookup` after `setKey` finds the new value at the updated key. -/
theorem lookup_setKey_same (l : List (String × PropVal)) (k : String) (v : PropVal) :
    (setKey l k v).lookup k = some v := by
  induction l with
  | nil => simp [setKey, List.lookup]
  | cons e rest ih =>
    rcases e with ⟨k1, v1⟩
    simp only [setKey]
    by_cases hk : k1 = k
    · rw [if_pos hk]
      simp [List.lookup]
    · rw [if_neg hk]
      have hb : (k == k1) = false := beq_eq_false_iff_ne.mpr (fun hh => hk hh.symm)
      simp only [List.lookup, hb]
      exact ih

/-- `lookup` at any other key is unchanged by `setKey`. -/
theorem lookup_setKey_other (l : List (String × PropVal)) (k k2 : String)
    (v : PropVal) (hne : k2 ≠ k) : (setKey l k v).lookup k2 = l.lookup k2 := by
  have hb2 : (k2 == k) = false := beq_eq_false_iff_ne.mpr hne
  induction l with
  | nil => simp [setKey, List.lookup, hb2]
  | cons e rest ih =>
    rcases e with ⟨k1, v1⟩
    simp only [setKey]
    by_cases hk : k1 = k
    · rw [if_pos hk, hk]
      simp only [List.lookup, hb2]
    · rw [if_neg hk]
      by_cases h2 : k2 = k1
      · have hb : (k2 == k1) = true := beq_iff_eq.mpr h2
        simp only [List.lookup, hb]
      · have hb : (k2 == k1) = false := beq_eq_false_iff_ne.mpr h2
        simp only [List.lookup, hb]
        exact ih

/-- Bold pass wrapper of the plain-identity lemma. -/
theorem boldRepl_plain_eq (x : List Char) (hx : ∀ c ∈ x, c ≠ '*') :
    boldRepl x = (x, false) :=
  doubleRepl_plain '*' strongOpen strongClose x.length x (Nat.le_refl _) hx

/-- Italic pass wrapper of the plain-identity lemma. -/
theorem italicRepl_plain_eq (prev : Option Char) (x : List Char)
    (hx : ∀ c ∈ x, c ≠ '*') : italicRepl prev x = (x, false) :=
  italicReplF_plain x.length prev x (Nat.le_refl _) hx

/-- Strikethrough pass wrapper of the plain-identity lemma. -/
theorem strikeRepl_plain_eq (x : List Char) (hx : ∀ c ∈ x, c ≠ '~') :
    strikeRepl x = (x, false) :=
  doubleRepl_plain '~' strikeOpen strikeClose x.length x (Nat.le_refl _) hx

/-- Code pass wrapper of the plain-identity lemma. -/
theorem codeRepl_plain_eq (x : List Char) (hx : ∀ c ∈ x, c ≠ backtick) :
    codeRepl x = (x, false) :=
  singleRepl_plain backtick codeOpen codeClose x.length x (Nat.le_refl _) hx

/-- Membership in a three-part concatenation splits into the three parts. -/
theorem forall_mem_append3 (d : Char) (a x b : List Char)
    (h1 : ∀ c ∈ a, c ≠ d) (h2 : ∀ c ∈ x, c ≠ d) (h3 : ∀ c ∈ b, c ≠ d) :
    ∀ c ∈ a ++ x ++ b, c ≠ d := by
  intro c hc
  rcases List.mem_append.mp hc with hc12 | hc3
  · rcases List.mem_append.mp hc12 with hc1 | hc2
    · exact h1 c hc1
    · exact h2 c hc2
  · exact h3 c hc3

/-- A concrete Task block used to exercise the claims about key handling. -/
def taskBlock : Block :=
  { id := 1, type := BlockType.task, content := "ABCD".data, properties := [] }

/-- A concrete Task block with a color property and an existing checked key. -/
def colorBlock : Block :=
  { id := 5, type := BlockType.task, content := "t".data,
    properties := [("color", PropVal.strVal "red".data),
      ("checked", PropVal.boolVal false)] }

/-- The claim C1 as stated is false: on the input `**a*b*c**` the first pass
converts only the inner italic span (the bold attempt fails because the
content class `[^*]+` cannot cross the inner asterisks), which exposes a bold
pair for the second pass, so re-applying convertInlineMarkdown to the
converted output converts again and reports `changed = true`. -/
theorem C1_counterexample :
    (convertInlineMarkdown "**a*b*c**".data).2 = true ∧
    (convertInlineMarkdown "**a*b*c**".data).1 = "**a<em>b</em>c**".data ∧
    (convertInlineMarkdown (convertInlineMarkdown "**a*b*c**".data).1).2 = true ∧
    (convertInlineMarkdown (convertInlineMarkdown "**a*b*c**".data).1).1 =
      "<strong>a<em>b</em>c</strong>".data := by decide

/-- C1 (amended): convertInlineMarkdown is idempotent at its fixed points:
whenever a pass reports `changed = false` the content was returned unchanged,
and re-applying the function to that output again returns it unchanged with
`changed = false`. When the first pass reports `changed = true`, a second
application may convert further. -/
theorem C1_idempotent_amended (s : List Char)
    (h : (convertInlineMarkdown s).2 = false) :
    convertInlineMarkdown (convertInlineMarkdown s).1 =
      ((convertInlineMarkdown s).1, false) := by
  have heq := convertInlineMarkdown_false_eq s h
  rw [heq]
  exact heq

/-- Witness for C1: the pattern-free input `hello` is a fixed point. -/
theorem C1_witness :
    (convertInlineMarkdown "hello".data).2 = false ∧
    convertInlineMarkdown (convertInlineMarkdown "hello".data).1 =
      ((convertInlineMarkdown "hello".data).1, false) := by
  have h : (convertInlineMarkdown "hello".data).2 = false := by decide
  exact ⟨h, C1_idempotent_amended "hello".data h⟩

/-- C2: on the input `**bold** and *it*alic` the autoformat function wraps
`bold` in the bold markup and `it` in the italic markup, leaving the trailing
`alic` as literal unwrapped text. -/
theorem C2_autoformat_scenario5 :
    convertInlineMarkdown "**bold** and *it*alic".data =
      ("<strong>bold</strong> and <em>it</em>alic".data, true) := by decide

/-- The claim C3 is false for blocks nested inside containers: NestedBlock's
key handler intercepts Enter without a modifier, inserts a line break into the
editable surface, and performs no store mutation, so after Enter at any offset
the single Task block is still the only block and its content is not
partitioned. -/
theorem C3_counterexample :
    nestedHandleKeyDown [taskBlock] "Enter".data false =
        ([taskBlock], SurfaceEffect.insertLineBreak) ∧
    (nestedHandleKeyDown [taskBlock] "Enter".data false).1.length = 1 := by
  constructor
  · simp [nestedHandleKeyDown]
  · simp [nestedHandleKeyDown]

/-- C3 (amended): for blocks nested inside containers, Enter without a
modifier does not split: the block tree is returned unchanged and a line
break is inserted into the surface. For top-level blocks the Split intent
behaves as specified: the content is partitioned at the cursor offset, the
current block keeps the left part, a new block with the right part and the
same type (Task/Quote degraded to Paragraph) is inserted immediately after,
and the new block becomes active with cursor offset 0. -/
theorem C3_split_amended :
    (∀ doc : List Block, nestedHandleKeyDown doc "Enter".data false =
        (doc, SurfaceEffect.insertLineBreak)) ∧
    (∀ (bs : List Block) (i k newId : Nat) (b : Block), bs[i]? = some b →
      (splitIntent bs i k newId).blocks =
          bs.take i ++
            { id := b.id, type := b.type, content := b.content.take k,
              properties := b.properties } ::
            { id := newId, type := degradeType b.type,
              content := b.content.drop k, properties := [] } :: bs.drop (i + 1) ∧
        b.content.take k ++ b.content.drop k = b.content ∧
        degradeType BlockType.task = BlockType.paragraph ∧
        degradeType BlockType.quote = BlockType.paragraph ∧
        (splitIntent bs i k newId).activeId = newId ∧
        (splitIntent bs i k newId).cursorOffset = 0) := by
  constructor
  · intro doc
    simp [nestedHandleKeyDown]
  · intro bs i k newId b hb
    refine ⟨?_, List.take_append_drop k b.content, rfl, rfl, ?_, ?_⟩ <;>
      simp [splitIntent, hb]

/-- Witness for C3: splitting the concrete single-block document at offset 2
activates the freshly created block with cursor offset 0. -/
theorem C3_witness :
    ([taskBlock] : List Block)[0]? = some taskBlock ∧
    (splitIntent [taskBlock] 0 2 7).activeId = 7 ∧
    (splitIntent [taskBlock] 0 2 7).cursorOffset = 0 := by
  have h : ([taskBlock] : List Block)[0]? = some taskBlock := rfl
  obtain ⟨_, _, _, _, hact, hcur⟩ := C3_split_amended.2 [taskBlock] 0 2 7 taskBlock h
  exact ⟨h, hact, hcur⟩

/-- The claim C4 is false: ParagraphBlock's `handleInput` runs on every input
event and unconditionally emits a store write of the surface buffer (here a
plain keystroke producing `a`), so content reaches the canonical tree as a
per-keystroke stream, not only at blur/save checkpoints. -/
theorem C4_counterexample :
    handleInput 0 "a".data = some (0, "a".data) := by decide

/-- C4 (amended): only nested blocks follow the checkpoint contract — their
blur handler emits a commit exactly when the buffer differs from the content
recorded at mount — while top-level paragraph blocks emit a store write on
every input event. -/
theorem C4_commit_amended :
    (∀ (id : Nat) (buf : List Char), ∃ c, handleInput id buf = some (id, c)) ∧
    (∀ (id : Nat) (init : List Char), handleBlur id init init = Option.none) ∧
    (∀ (id : Nat) (init cur : List Char), cur ≠ init →
      handleBlur id init cur = some (id, cur)) := by
  refine ⟨?_, ?_, ?_⟩
  · intro id buf
    unfold handleInput
    by_cases h : (convertInlineMarkdown buf).2 = true
    · exact ⟨(convertInlineMarkdown buf).1, by simp [h]⟩
    · exact ⟨buf, by simp [h]⟩
  · intro id init
    simp [handleBlur]
  · intro id init cur h
    simp [handleBlur, h]

/-- Witness for C4: a nested blur with changed content emits one commit. -/
theorem C4_witness :
    handleBlur 0 "a".data "ab".data = some (0, "ab".data) :=
  C4_commit_amended.2.2 0 "a".data "ab".data (by decide)

/-- C5: an unterminated delimiter is never an error and is left verbatim:
each of the four passes returns its input unchanged whenever its pattern
fails to match, a negative `changed` flag returns the whole input verbatim,
and on concrete inputs whose `**`, `*`, `~~` or backtick delimiters lack a
closing pair the function returns the input itself — also when a matched pair
elsewhere in the string does convert. -/
theorem C5_unterminated_verbatim :
    (∀ s : List Char, (boldRepl s).2 = false → (boldRepl s).1 = s) ∧
    (∀ (prev : Option Char) (s : List Char), (italicRepl prev s).2 = false →
      (italicRepl prev s).1 = s) ∧
    (∀ s : List Char, (strikeRepl s).2 = false → (strikeRepl s).1 = s) ∧
    (∀ s : List Char, (codeRepl s).2 = false → (codeRepl s).1 = s) ∧
    (∀ s : List Char, (convertInlineMarkdown s).2 = false →
      convertInlineMarkdown s = (s, false)) ∧
    convertInlineMarkdown "**bold and *it".data = ("**bold and *it".data, false) ∧
    convertInlineMarkdown "**bold** and *it".data =
      ("<strong>bold</strong> and *it".data, true) ∧
    convertInlineMarkdown "~~a and `b".data = ("~~a and `b".data, false) :=
  ⟨boldRepl_false_eq, italicRepl_false_eq, strikeRepl_false_eq, codeRepl_false_eq,
    convertInlineMarkdown_false_eq, by decide, by decide, by decide⟩

/-- Witness for C5: the unterminated `**abc` passes through verbatim. -/
theorem C5_witness :
    (convertInlineMarkdown "**abc".data).2 = false ∧
    convertInlineMarkdown "**abc".data = ("**abc".data, false) := by
  have h : (convertInlineMarkdown "**abc".data).2 = false := by decide
  exact ⟨h, C5_unterminated_verbatim.2.2.2.2.1 "**abc".data h⟩

/-- C6: bold is evaluated before italic, and a single-asterisk pair becomes
italic only when neither delimiter is adjacent to another asterisk. For every
delimiter-free nonempty content `x`: `**x**` converts to the bold wrapping
(its asterisks are never re-matched as italic), and an unterminated `**x`
stays verbatim because each of its two asterisks is adjacent to the other.
Concretely, `*a**` and `**a*` stay verbatim (the candidate italic delimiter is
adjacent to another `*`), while `*a*` does become italic. -/
theorem C6_bold_before_italic :
    (∀ x : List Char, x ≠ [] → (∀ c ∈ x, c ≠ '*' ∧ c ≠ '~' ∧ c ≠ backtick) →
      convertInlineMarkdown ('*' :: '*' :: (x ++ ['*', '*'])) =
          (strongOpen ++ x ++ strongClose, true) ∧
        convertInlineMarkdown ('*' :: '*' :: x) = ('*' :: '*' :: x, false)) ∧
    convertInlineMarkdown "*a**".data = ("*a**".data, false) ∧
    convertInlineMarkdown "**a*".data = ("**a*".data, false) ∧
    convertInlineMarkdown "*a*".data = (emOpen ++ "a".data ++ emClose, true) := by
  refine ⟨?_, by decide, by decide, by decide⟩
  intro x hne hx
  have hxs : ∀ c ∈ x, c ≠ '*' := fun c hc => (hx c hc).1
  have hxt : ∀ c ∈ x, c ≠ '~' := fun c hc => (hx c hc).2.1
  have hxb : ∀ c ∈ x, c ≠ backtick := fun c hc => (hx c hc).2.2
  constructor
  · rw [convertInlineMarkdown_eq]
    have hb : boldRepl ('*' :: '*' :: (x ++ ['*', '*'])) =
        (strongOpen ++ x ++ strongClose, true) :=
      doubleRepl_full_match '*' strongOpen strongClose
        ('*' :: '*' :: (x ++ ['*', '*'])).length x hne hxs (Nat.le_refl _)
    rw [hb]
    dsimp only
    rw [italicRepl_plain_eq Option.none (strongOpen ++ x ++ strongClose)
      (forall_mem_append3 '*' strongOpen x strongClose (by decide) hxs (by decide))]
    dsimp only
    rw [strikeRepl_plain_eq (strongOpen ++ x ++ strongClose)
      (forall_mem_append3 '~' strongOpen x strongClose (by decide) hxt (by decide))]
    dsimp only
    rw [codeRepl_plain_eq (strongOpen ++ x ++ strongClose)
      (forall_mem_append3 backtick strongOpen x strongClose (by decide) hxb (by decide))]
    simp
  · rw [convertInlineMarkdown_eq]
    have hb : boldRepl ('*' :: '*' :: x) = ('*' :: '*' :: x, false) :=
      doubleRepl_open_unmatched '*' strongOpen strongClose
        ('*' :: '*' :: x).length x hne hxs (Nat.le_refl _)
    rw [hb]
    dsimp only
    have hi : italicRepl Option.none ('*' :: '*' :: x) = ('*' :: '*' :: x, false) :=
      italicReplF_double_open ('*' :: '*' :: x).length x hxs (Nat.le_refl _)
    rw [hi]
    dsimp only
    have ht : ∀ c ∈ '*' :: '*' :: x, c ≠ '~' := by
      intro c hc
      rcases List.mem_cons.mp hc with h | hc2
      · subst h; decide
      rcases List.mem_cons.mp hc2 with h | hc3
      · subst h; decide
      · exact hxt c hc3
    rw [strikeRepl_plain_eq ('*' :: '*' :: x) ht]
    dsimp only
    have hbk : ∀ c ∈ '*' :: '*' :: x, c ≠ backtick := by
      intro c hc
      rcases List.mem_cons.mp hc with h | hc2
      · subst h; decide
      rcases List.mem_cons.mp hc2 with h | hc3
      · subst h; decide
      · exact hxb c hc3
    rw [codeRepl_plain_eq ('*' :: '*' :: x) hbk]
    simp

/-- Witness for C6: the content `it` instantiates the universal part. -/
theorem C6_witness :
    ("it".data ≠ ([] : List Char)) ∧
    convertInlineMarkdown ('*' :: '*' :: ("it".data ++ ['*', '*'])) =
      (strongOpen ++ "it".data ++ strongClose, true) := by
  refine ⟨by decide, ?_⟩
  exact (C6_bold_before_italic.1 "it".data (by decide) (by decide)).1

/-- C7: a drag gesture whose source equals the hovered block resolves to a
no-op (the committed order is the original order), and the drop indicator is
never shown on the dragged block itself. -/
theorem C7_self_drop_noop :
    (∀ (order : List Nat) (source hovered : Nat) (topHalf : Bool),
      source = hovered → resolveDrag order source hovered topHalf = order) ∧
    (∀ (isOver isDragging : Bool) (bid : Nat),
      showDropIndicator isOver isDragging (some bid) bid = false) := by
  constructor
  · intro order source hovered topHalf h
    simp [resolveDrag, h]
  · intro isOver isDragging bid
    simp [showDropIndicator]

/-- Witness for C7: dropping block 2 onto itself leaves the order `[1,2,3]`. -/
theorem C7_witness : resolveDrag [1, 2, 3] 2 2 true = [1, 2, 3] :=
  C7_self_drop_noop.1 [1, 2, 3] 2 2 true rfl

/-- C8: toggling a Task checkbox updates only the `checked` key of the
properties mapping by a shallow merge: the block's id, type and content are
unchanged, `checked` maps to the new value, and every other property key
resolves to its previous value. -/
theorem C8_checkbox_shallow_merge (b : Block) (v : Bool) :
    (handleCheckboxChange b v).id = b.id ∧
    (handleCheckboxChange b v).type = b.type ∧
    (handleCheckboxChange b v).content = b.content ∧
    (handleCheckboxChange b v).properties.lookup "checked" =
      some (PropVal.boolVal v) ∧
    ∀ k : String, k ≠ "checked" →
      (handleCheckboxChange b v).properties.lookup k = b.properties.lookup k := by
  refine ⟨rfl, rfl, rfl, ?_, ?_⟩
  · exact lookup_setKey_same b.properties "checked" (PropVal.boolVal v)
  · intro k hk
    exact lookup_setKey_other b.properties "checked" k (PropVal.boolVal v) hk

/-- Witness for C8: checking the concrete Task block keeps its color. -/
theorem C8_witness :
    (handleCheckboxChange colorBlock true).properties.lookup "color" =
        colorBlock.properties.lookup "color" ∧
    (handleCheckboxChange colorBlock true).properties.lookup "checked" =
      some (PropVal.boolVal true) :=
  ⟨(C8_checkbox_shallow_merge colorBlock true).2.2.2.2 "color" (by decide),
    (C8_checkbox_shallow_merge colorBlock true).2.2.2.1⟩

/-- C9: convertInlineMarkdown is pure and stateless across calls: its result
does not depend on the regex lastIndex environment left by earlier calls
(each call evaluates fresh regex literals), the call leaves the environment
unchanged, and two consecutive invocations on the same input return identical
(converted, changed) results. -/
theorem C9_pure_stateless (env1 env2 : RegexEnv) (s : List Char) :
    (convertInlineMarkdownCall env1 s).1 = (convertInlineMarkdownCall env2 s).1 ∧
    (convertInlineMarkdownCall env1 s).2 = env1 ∧
    (convertInlineMarkdownCall ((convertInlineMarkdownCall env1 s).2) s).1 =
      (convertInlineMarkdownCall env1 s).1 :=
  ⟨rfl, rfl, rfl⟩

/-- C10: the `changed` flag is true exactly when the returned string differs
from the input; in particular `changed = false` returns the content
byte-for-byte. -/
theorem C10_changed_iff_differs (s : List Char) :
    (convertInlineMarkdown s).2 = true ↔ (convertInlineMarkdown s).1 ≠ s := by
  constructor
  · exact convertInlineMarkdown_true_ne s
  · intro hne
    by_cases h : (convertInlineMarkdown s).2 = true
    · exact h
    · exfalso
      have hf : (convertInlineMarkdown s).2 = false := by
        rcases Bool.eq_false_or_eq_true (convertInlineMarkdown s).2 with h2 | h2
        · exact absurd h2 h
        · exact h2
      have heq := convertInlineMarkdown_false_eq s hf
      rw [heq] at hne
      exact hne rfl
